import Mathlib

set_option maxHeartbeats 1000000

namespace Curlpip

/-!
Shallow embedding of `scripts/curlpip.py` (the `ModuleInstaller` core):
version parsing and comparison (`distutils.version.LooseVersion`),
constraint matching (`compare_version` / `is_match_version`), metadata
fetching with redirect handling and caching (`get_project_json`), archive
URL location (`find_module_file` / `get_module_url`), dependency-line
parsing for wheel and source archives (`get_whl_dependencies` /
`get_source_dependencies`), and the recursive resolver with its
deduplication pass (`get_module_recursive` / `clean_duplicated_files`).

Strings are handled as `List Char` in parsing internals; `\w` and `\d`
character classes are modelled over ASCII, which covers every string the
program and the properties below exercise.
-/

/-! ## LooseVersion: parsing and comparison -/

/-- Components of a parsed `distutils.version.LooseVersion`: maximal digit
runs become numbers, every other captured chunk stays a string. -/
inductive VPart where
  | num (n : Nat)
  | alpha (s : String)
  deriving DecidableEq, Repr

def isDigitC (c : Char) : Bool := '0' ≤ c && c ≤ '9'

def isLowerC (c : Char) : Bool := 'a' ≤ c && c ≤ 'z'

/-- Pending token while scanning a version string, mirroring the chunks
produced by `LooseVersion.component_re.split` (digit runs, lowercase runs,
`.` separators, and the uncaptured text between matches). -/
inductive VTok where
  | tnone
  | tnum (n : Nat)
  | talpha (rev : List Char)
  | tother (rev : List Char)

def flushTok : VTok → List VPart
  | .tnone => []
  | .tnum n => [.num n]
  | .talpha r => [.alpha (String.mk r.reverse)]
  | .tother r => [.alpha (String.mk r.reverse)]

/-- Scanner for `LooseVersion.parse`: splits on digit runs, lowercase runs
and `.`; digit runs are converted with `int`, everything else is kept as a
string chunk (the `int(obj)` attempt on a non-digit chunk always fails). -/
def parseGo : VTok → List Char → List VPart
  | t, [] => flushTok t
  | t, c :: cs =>
    if isDigitC c then
      match t with
      | .tnum n => parseGo (.tnum (n * 10 + (c.toNat - 48))) cs
      | t => flushTok t ++ parseGo (.tnum (c.toNat - 48)) cs
    else if isLowerC c then
      match t with
      | .talpha r => parseGo (.talpha (c :: r)) cs
      | t => flushTok t ++ parseGo (.talpha [c]) cs
    else if c = '.' then
      flushTok t ++ parseGo .tnone cs
    else
      match t with
      | .tother r => parseGo (.tother (c :: r)) cs
      | t => flushTok t ++ parseGo (.tother [c]) cs

/-- `LooseVersion(vstring)`: the parsed component list. -/
def parseVersion (s : List Char) : List VPart := parseGo .tnone s

/-- Strict order on version components.  Python 3 compares equal-kind
components directly; comparing a numeric with a string component raises
`TypeError`, a case no caller of this development exercises — it is
totalised here (numbers below strings) so the order is decidable. -/
def vpartLtB : VPart → VPart → Bool
  | .num a, .num b => a < b
  | .alpha a, .alpha b => decide (a < b)
  | .num _, .alpha _ => true
  | .alpha _, .num _ => false

/-- Python list lexicographic `<` on parsed version component lists. -/
def verLtB : List VPart → List VPart → Bool
  | [], [] => false
  | [], _ :: _ => true
  | _ :: _, [] => false
  | a :: as, b :: bs => if a = b then verLtB as bs else vpartLtB a b

/-! ## Constraint matching -/

/-- `VersionRequirement` namedtuple: parsed version plus relational
operator, defaults `(None, '==')`. -/
structure VersionRequirement where
  version : Option (List VPart) := none
  operator : String := "=="
  deriving DecidableEq, Repr

/-- `InstallModule` namedtuple: package name plus constraint sequence. -/
structure InstallModule where
  name : String
  version_requirements : List VersionRequirement := []
  deriving DecidableEq, Repr

/-- `ModuleInstaller.compare_version`: evaluate one operator between a
candidate and a required version; a missing required version is trivially
satisfied, an unknown operator yields `False`. -/
def compare_version (target : List VPart) (require : Option (List VPart))
    (operator : String) : Bool :=
  match require with
  | none => true
  | some req =>
    if operator = "" || operator = "==" then decide (target = req)
    else if operator = "!=" then decide (target ≠ req)
    else if operator = ">=" then !(verLtB target req)
    else if operator = ">" then verLtB req target
    else if operator = "<=" then !(verLtB req target)
    else if operator = "<" then verLtB target req
    else false

/-- `ModuleInstaller.is_match_version`: an empty requirement list always
matches, otherwise all requirements must hold. -/
def is_match_version (target : List VPart)
    (version_requirements : List VersionRequirement) : Bool :=
  if version_requirements.isEmpty then true
  else version_requirements.all fun r =>
    compare_version target r.version r.operator

/-! ## Metadata fetching: redirect resolution and cache (`get_project_json`) -/

/-- Character class of the redirect pattern
`/pypi/([\w\.\-\_]+)/json;` (ASCII `\w` plus `.` and `-`). -/
def is301Class (c : Char) : Bool := c.isAlphanum || c = '_' || c = '.' || c = '-'

/-- Try to match the redirect pattern at the head of `l`: literal
`/pypi/`, a maximal nonempty run of class characters (group 1), then
literal `/json;`.  Greedy matching is exact here because `/` is outside
the class, so no backtracking case succeeds. -/
def match301At (l : List Char) : Option (List Char) :=
  if "/pypi/".data.isPrefixOf l then
    let rest := l.drop 6
    let run := rest.takeWhile is301Class
    if run ≠ [] && "/json;".data.isPrefixOf (rest.dropWhile is301Class) then
      some run
    else none
  else none

/-- `self._301_filter.search(text)`: leftmost match of the redirect
pattern, returning group 1 (the embedded package name). -/
def find301 : List Char → Option (List Char)
  | [] => none
  | c :: cs =>
    match match301At (c :: cs) with
    | some run => some run
    | none => find301 cs

/-- The slice of a JSON object that `get_project_json` inspects: the
`code` and `message` fields (absent field = `none`) plus an opaque tag
standing for the rest of the document. -/
structure JDict where
  code : Option String := none
  message : Option (List Char) := none
  payload : Nat := 0
  deriving DecidableEq, Repr

/-- Result of `text2json`: either the original string (JSON decode
failed), a parsed object, or some other parsed JSON value. -/
inductive JVal where
  | jstr (s : List Char)
  | jdict (d : JDict)
  | jother (k : Nat)
  deriving DecidableEq, Repr

/-- A raw index response: the body text (searched by the redirect regex
before parsing) together with its `text2json` outcome.  When decoding
fails, `text2json` returns the body itself. -/
inductive Raw where
  | unparsable (text : List Char)
  | asDict (text : List Char) (d : JDict)
  | asOther (text : List Char) (k : Nat)

def Raw.rawText : Raw → List Char
  | .unparsable t => t
  | .asDict t _ => t
  | .asOther t _ => t

def Raw.parse : Raw → JVal
  | .unparsable t => .jstr t
  | .asDict _ d => .jdict d
  | .asOther _ k => .jother k

/-- The `while count < max_count` loop of `get_project_json`, with the
remaining iteration budget as fuel (`fuel = max_count - count`, the loop
guard makes it decrease by one per iteration).  Also returns the list of
package names fetched, in order.  `Except.error` models the uncaught
`KeyError` raised by `fix_301_json` when a `301 Moved Permanently`
object has no `message` field. -/
def redirectLoop (net : List Char → Raw) :
    Nat → JVal → Except Unit JVal × List (List Char)
  | 0, obj => (.ok obj, [])
  | Nat.succ n, obj =>
    match obj with
    | .jstr s =>
      match find301 s with
      | some name =>
        match redirectLoop net n (net name).parse with
        | (r, tr) => (r, name :: tr)
      | none => (.ok obj, [])
    | .jdict d =>
      if d.code = some "301 Moved Permanently" then
        match d.message with
        | none => (.error (), [])
        | some msg =>
          match find301 msg with
          | some _ =>
            match redirectLoop net n (net msg).parse with
            | (r, tr) => (r, msg :: tr)
          | none =>
            redirectLoop net n (.jdict d)
      else (.ok obj, [])
    | .jother _ => (.ok obj, [])

/-- The non-cached path of `get_project_json`: initial request, one
unconditional `fix_301_text` pass, then the bounded redirect loop; a
terminal non-object value becomes `none`.  The second component is the
trace of package names requested over the network, in order. -/
def fetchFresh (net : List Char → Raw) (project : List Char) :
    Except Unit (Option JDict) × List (List Char) :=
  let r0 := net project
  let first : JVal × List (List Char) :=
    match find301 r0.rawText with
    | some name => ((net name).parse, [project, name])
    | none => (r0.parse, [project])
  match redirectLoop net 20 first.1 with
  | (.ok obj, tr) =>
    (.ok (match obj with | .jdict d => some d | _ => none), first.2 ++ tr)
  | (.error e, tr) => (.error e, first.2 ++ tr)

/-- The in-memory `self._api_cache` (a Python dict keyed by package name,
insertion ordered). -/
abbrev ApiCache := List (List Char × Option JDict)

def cacheLookup : ApiCache → List Char → Option (Option JDict)
  | [], _ => none
  | (k, v) :: rest, p => if k = p then some v else cacheLookup rest p

/-- `ModuleInstaller.get_project_json`: return a cached value untouched
(issuing no request), otherwise fetch, store the result — metadata or
`None` — under the package name, and return it.  The second component is
the list of network requests issued by this call. -/
def get_project_json (net : List Char → Raw) (cache : ApiCache)
    (project : List Char) :
    Except Unit (Option JDict × ApiCache) × List (List Char) :=
  match cacheLookup cache project with
  | some v => (.ok (v, cache), [])
  | none =>
    match fetchFresh net project with
    | (.ok resp, tr) => (.ok (resp, cache ++ [(project, resp)]), tr)
    | (.error e, tr) => (.error e, tr)

/-! ## Archive URL location (`find_module_file` / `get_module_url`) -/

/-- One entry of the index's `releases`/`urls` file-descriptor lists, with
the fields the program reads. -/
structure FileInfo where
  packagetype : String
  url : String
  filename : String
  python_version : String
  deriving DecidableEq, Repr

/-- The slice of a project JSON document that `get_module_url` reads:
`info.version`, `releases` (version string → file descriptors) and the
flat `urls` list. -/
structure ProjectMeta where
  latest : String
  releases : List (String × List FileInfo)
  urls : List FileInfo
  deriving DecidableEq, Repr

/-- `ModuleInstaller.find_module_file`.  `supported` stands for
`Wheel(fname).supported()`, a property of the running environment.
(For an `sdist` descriptor whose `python_version` is not `source` the
program also reaches the `Wheel(fname)` call, which raises on a
non-wheel filename; no property below exercises that descriptor shape.) -/
def find_module_file (supported : String → Bool) (package_type : String) :
    List FileInfo → Option String
  | [] => none
  | fi :: rest =>
    if fi.packagetype ≠ package_type then
      find_module_file supported package_type rest
    else if package_type = "sdist" && fi.python_version = "source" then
      some fi.url
    else if supported fi.filename then
      some fi.url
    else find_module_file supported package_type rest

def find_whl (supported : String → Bool) (objs : List FileInfo) : Option String :=
  find_module_file supported "bdist_wheel" objs

def find_source (supported : String → Bool) (objs : List FileInfo) : Option String :=
  find_module_file supported "sdist" objs

/-- The two entries of the `finders` dict in `get_url`. -/
inductive FType where
  | whl
  | source
  deriving DecidableEq, Repr

def finderOf (supported : String → Bool) : FType → List FileInfo → Option String
  | .whl, objs => find_whl supported objs
  | .source, objs => find_source supported objs

/-- Python dict lookup `project_obj['releases'][version]` as an
association-list lookup (index dict keys are unique). -/
def lookupRelease : List (String × List FileInfo) → String → Option (List FileInfo)
  | [], _ => none
  | (k, v) :: rest, ver => if k = ver then some v else lookupRelease rest ver

/-- Descending stable insertion for `sort_releases` (ties keep their
original relative order, matching Python's stable `sorted` with
`reverse=True`). -/
def insertRelDesc (x : List VPart × List FileInfo) :
    List (List VPart × List FileInfo) → List (List VPart × List FileInfo)
  | [] => [x]
  | y :: ys => if verLtB x.1 y.1 then y :: insertRelDesc x ys else x :: y :: ys

/-- `sort_releases`: pair each release with its parsed version and sort
by descending parsed version (stable, so this insertion sort computes the
same list as Python's `sorted(..., reverse=True)`). -/
def sort_releases (releases : List (String × List FileInfo)) :
    List (List VPart × List FileInfo) :=
  (releases.map fun p => (parseVersion p.1.data, p.2)).foldr insertRelDesc []

/-- The final `for version, release in sort_releases(...)` loop of
`get_url`: skip versions failing the constraints, return the first URL
the finder produces. -/
def searchReleases (finder : List FileInfo → Option String)
    (reqs : List VersionRequirement) :
    List (List VPart × List FileInfo) → Option String
  | [] => none
  | (v, rel) :: rest =>
    if !is_match_version v reqs then searchReleases finder reqs rest
    else
      match finder rel with
      | some url => some url
      | none => searchReleases finder reqs rest

/-- Fallback tail of `get_url` once the latest-version step yielded no
URL: search the flat `urls` list, then the constraint-filtered descending
release iteration. -/
def afterLatest (supported : String → Bool) (proj : ProjectMeta) (ftype : FType)
    (reqs : List VersionRequirement) : Except Unit (Option String) :=
  match finderOf supported ftype proj.urls with
  | some url => .ok (some url)
  | none => .ok (searchReleases (finderOf supported ftype) reqs
      (sort_releases proj.releases))

/-- The inner `get_url(project_obj, file_type)` of `get_module_url`.
`Except.error` models the uncaught `KeyError` of
`project_obj['releases'][latest_version]` when the latest version is
absent from `releases`. -/
def get_url (supported : String → Bool) (proj : ProjectMeta) (ftype : FType)
    (reqs : List VersionRequirement) : Except Unit (Option String) :=
  if is_match_version (parseVersion proj.latest.data) reqs then
    match lookupRelease proj.releases proj.latest with
    | none => .error ()
    | some objs =>
      match finderOf supported ftype objs with
      | some url => .ok (some url)
      | none => afterLatest supported proj ftype reqs
  else afterLatest supported proj ftype reqs

/-- Possible outcomes of `get_module_url`. -/
inductive UrlOutcome where
  | fatal
  | keyErr
  | url (u : Option String)
  deriving DecidableEq, Repr

/-- `ModuleInstaller.get_module_url`, as a function of the metadata-fetch
result for `module.name`: a falsy project document prints an error and
calls `sys.exit(1)` (`fatal`); otherwise try a wheel URL across the whole
priority order and fall back to a source URL. -/
def get_module_url (supported : String → Bool) (fetched : Option ProjectMeta)
    (module : InstallModule) : UrlOutcome :=
  match fetched with
  | none => .fatal
  | some proj =>
    match get_url supported proj .whl module.version_requirements with
    | .error _ => .keyErr
    | .ok (some u) => .url (some u)
    | .ok none =>
      match get_url supported proj .source module.version_requirements with
      | .error _ => .keyErr
      | .ok u => .url u

/-! ## Dependency extraction: wheel metadata lines (`get_whl_dependencies`) -/

def isWordC (c : Char) : Bool := c.isAlphanum || c = '_'

/-- Name class of both dependency patterns: `[\w\[\]\-]`. -/
def inNameClass (c : Char) : Bool := isWordC c || c = '[' || c = ']' || c = '-'

/-- Constraint-list class of the wheel pattern: `[\<\>\=\!\w\.\,]`. -/
def inConstrClass (c : Char) : Bool :=
  isWordC c || c = '<' || c = '>' || c = '=' || c = '!' || c = '.' || c = ','

/-- Operator class of `version_filter`: `[\<\>\=\!]`. -/
def isOpC (c : Char) : Bool := c = '<' || c = '>' || c = '=' || c = '!'

/-- Operator class of the source pattern: `[\<\>\=]` (no `!`). -/
def isOpCSrc (c : Char) : Bool := c = '<' || c = '>' || c = '='

/-- Version class of both patterns: `[\w\.]`. -/
def inVerClass (c : Char) : Bool := isWordC c || c = '.'

/-- The characters of the bare-name test `s not in '()!=<>'`. -/
def isPunctC (c : Char) : Bool :=
  c = '(' || c = ')' || c = '!' || c = '=' || c = '<' || c = '>'

/-- `module_filter.search` for wheel lines, pattern
`^([\w\[\]\-]+) \(([\<\>\=\!\w\.\,]+)\)$`: the whole string must be
`group1 ++ " (" ++ group2 ++ ")"`.  Both character classes exclude the
delimiter that follows them, so greedy runs are exact and no backtracking
case succeeds. -/
def wheelLineMatch (s : List Char) : Option (List Char × List Char) :=
  let a := s.takeWhile inNameClass
  let rest := s.dropWhile inNameClass
  if a = [] then none
  else
    match rest with
    | ' ' :: '(' :: r2 =>
      let b := r2.takeWhile inConstrClass
      let r3 := r2.dropWhile inConstrClass
      if b = [] then none
      else
        match r3 with
        | [')'] => some (a, b)
        | _ => none
    | _ => none

/-- One anchored attempt of `version_filter`, pattern
`([\<\>\=\!]+)([\w\.]+)`, at the head of `l`. -/
def verReqMatchAt (l : List Char) : Option (List Char × List Char) :=
  let ops := l.takeWhile isOpC
  let rest := l.dropWhile isOpC
  let ver := rest.takeWhile inVerClass
  if ops ≠ [] && ver ≠ [] then some (ops, ver) else none

/-- `version_filter.search`: leftmost match of operator-run followed by a
version-run. -/
def versionFilterSearch : List Char → Option (List Char × List Char)
  | [] => none
  | c :: cs =>
    match verReqMatchAt (c :: cs) with
    | some r => some r
    | none => versionFilterSearch cs

/-- Python `split(',')` (keeps empty segments). -/
def splitCommaAux (cur : List Char) : List Char → List (List Char)
  | [] => [cur.reverse]
  | c :: cs =>
    if c = ',' then cur.reverse :: splitCommaAux [] cs
    else splitCommaAux (c :: cur) cs

def splitComma (l : List Char) : List (List Char) := splitCommaAux [] l

/-- Python `str.replace(old, '')` for a nonempty pattern `p :: ps`:
remove every (leftmost, non-overlapping) occurrence.  The `Nat` argument
is structural fuel; every step consumes at least one character, so fuel
equal to the input length (as supplied by `removeAll`) never runs out. -/
def removeAllAux (p : Char) (ps : List Char) : Nat → List Char → List Char
  | _, [] => []
  | 0, l => l
  | Nat.succ n, c :: cs =>
    if (p :: ps).isPrefixOf (c :: cs) then removeAllAux p ps n (cs.drop ps.length)
    else c :: removeAllAux p ps n cs

def removeAll (p : Char) (ps : List Char) (l : List Char) : List Char :=
  removeAllAux p ps l.length l

/-- Python `str.strip()`. -/
def stripChars (l : List Char) : List Char :=
  ((l.dropWhile Char.isWhitespace).reverse.dropWhile Char.isWhitespace).reverse

/-- `name.split('[')[0]` guarded by `'[' in name` (the guard does not
change the result, but mirrors the source). -/
def stripExtras (name : List Char) : List Char :=
  if '[' ∈ name then name.takeWhile (fun c => !(c = '[')) else name

/-- The inner `dep2module` of `get_whl_dependencies`, applied to the
already label-stripped, whitespace-stripped line: a structured
`name (constraints)` line parses into name (extras suffix removed) plus
one requirement per comma-separated expression that `version_filter`
matches; an unstructured line with no constraint punctuation is a bare
name; any other unstructured line yields `None`. -/
def dep2moduleWhl (dep : List Char) : Option InstallModule :=
  match wheelLineMatch dep with
  | none =>
    if dep.all (fun c => !isPunctC c) then some ⟨String.mk dep, []⟩
    else none
  | some (g1, g2) =>
    let name := stripExtras g1
    let versions := (splitComma g2).map versionFilterSearch
    some ⟨String.mk name,
      versions.filterMap fun v =>
        v.map fun p => ⟨some (parseVersion p.2), String.mk p.1⟩⟩

def depsLabel : List Char := "Requires-Dist:".data

/-- Processing of one scanned metadata line:
`dep2module(line)` computes `line.replace('Requires-Dist:','').strip()`
and parses it. -/
def parseWheelDepLine (line : List Char) : Option InstallModule :=
  dep2moduleWhl (stripChars (removeAll 'R' "equires-Dist:".data line))

/-- The line scan of `get_whl_dependencies`: every line starting with the
`Requires-Dist:` label is parsed and appended — including `None`
placeholders for lines `dep2module` rejects. -/
def get_whl_dependencies (lines : List (List Char)) : List (Option InstallModule) :=
  (lines.filter fun l => depsLabel.isPrefixOf l).map parseWheelDepLine

/-! ## Dependency extraction: source `requires.txt` (`get_source_dependencies`) -/

/-- `module_filter.search` for source lines, pattern
`^([\w\[\]\-]+)([\<\>\=]+)([\w\.]+)$`: the three classes are pairwise
disjoint on their boundary characters, so greedy runs are exact. -/
def sourceLineMatch (s : List Char) :
    Option (List Char × List Char × List Char) :=
  let a := s.takeWhile inNameClass
  let rest := s.dropWhile inNameClass
  let b := rest.takeWhile isOpCSrc
  let rest2 := rest.dropWhile isOpCSrc
  if a = [] || b = [] || rest2 = [] then none
  else if rest2.all inVerClass then some (a, b, rest2) else none

/-- The inner `dep2module` of `get_source_dependencies`.  Note the
returned request's name is `res.group(1)` unchanged: the
`name.split('[')[0]` extras-stripping result is computed into a local that
the return expression does not use. -/
def dep2moduleSrc (dep : List Char) : Option InstallModule :=
  match sourceLineMatch dep with
  | none =>
    if dep.all (fun c => !isPunctC c) then some ⟨String.mk dep, []⟩
    else none
  | some (g1, g2, g3) =>
    some ⟨String.mk g1, [⟨some (parseVersion g3), String.mk g2⟩]⟩

/-- Line filter of `parse_requirements`: keep a stripped line when it is
nonempty and starts with neither `#` nor `[`. -/
def keepReqLine (l : List Char) : Bool :=
  match l with
  | [] => false
  | c :: _ => !(c = '#' || c = '[')

/-- `parse_requirements`: strip each line, keep non-comment,
non-section-header, non-blank lines, parse each, and drop the `None`
results. -/
def parse_requirements (lines : List (List Char)) : List InstallModule :=
  (((lines.map stripChars).filter keepReqLine).map dep2moduleSrc).filterMap id

/-! ## Resolver and deduplication -/

/-- The accumulation performed by `get_module_recursive` (its behaviour at
every recursive call, which runs at `depth < 0`): the module's own archive
tagged with the current depth, followed by each dependency's recursive
files at `depth - 1`; a failed download contributes nothing, and `None`
dependency placeholders are skipped by the `if not dep` guard.
`download` abstracts `download_module` (URL location plus disk cache) and
`deps` abstracts `get_dependencies` of the downloaded archive.  Python's
recursion is unbounded (a dependency cycle recurses forever); `fuel`
bounds the unfolding, with exhaustion yielding the empty contribution. -/
def getModuleFiles (download : InstallModule → Option String)
    (deps : String → List (Option InstallModule)) :
    Nat → InstallModule → Int → List (String × Int)
  | 0, _, _ => []
  | Nat.succ fuel, m, depth =>
    match download m with
    | none => []
    | some file =>
      (file, depth) :: ((deps file).map fun od =>
        match od with
        | none => []
        | some dep => getModuleFiles download deps fuel dep (depth - 1)).flatten

/-- Stable ascending insertion by depth: ties keep original order, so
`sortByDepth` computes the same list as Python's stable
`module_files.sort(key=lambda e: e[1])`. -/
def insertAsc (x : String × Int) : List (String × Int) → List (String × Int)
  | [] => [x]
  | y :: ys => if x.2 ≤ y.2 then x :: y :: ys else y :: insertAsc x ys

def sortByDepth : List (String × Int) → List (String × Int)
  | [] => []
  | x :: xs => insertAsc x (sortByDepth xs)

/-- `clean_duplicated_files` loop: `seen` is the `cache` set of already
emitted paths. -/
def cleanAux (seen : List String) : List String → List String
  | [] => []
  | f :: fs => if f ∈ seen then cleanAux seen fs else f :: cleanAux (f :: seen) fs

/-- `ModuleInstaller.clean_duplicated_files`: keep the first occurrence of
each path, preserving order. -/
def clean_duplicated_files (module_files : List String) : List String :=
  cleanAux [] module_files

/-- The original `depth == 0` call of `get_module_recursive`: accumulate
as every call does, then — only here, since `depth < 0` fails — sort
ascending by depth and deduplicate the projected path list. -/
def get_module_recursive_top (download : InstallModule → Option String)
    (deps : String → List (Option InstallModule)) (fuel : Nat)
    (m : InstallModule) : List String :=
  clean_duplicated_files
    ((sortByDepth (getModuleFiles download deps fuel m 0)).map Prod.fst)

/-! ## Concrete instances used by counterexamples and witnesses -/

/-- Relative position in a list: `x` occurs strictly before some
occurrence of `y`. -/
def Before (x y : String) (l : List String) : Prop :=
  ∃ r1 r2 r3, l = r1 ++ x :: r2 ++ y :: r3

def f20ex : FileInfo := ⟨"bdist_wheel", "u20", "pkg-2.0-py3-none-any.whl", "py3"⟩

def f10ex : FileInfo := ⟨"bdist_wheel", "u10", "pkg-1.0-py3-none-any.whl", "py3"⟩

def projEx : ProjectMeta := ⟨"2.0", [("2.0", [f20ex]), ("1.0", [f10ex])], [f20ex]⟩

def modEx : InstallModule := ⟨"pkg", [⟨some [.num 2, .num 0], "<"⟩]⟩

def proj2Ex : ProjectMeta := ⟨"2.0", [("2.0", []), ("1.0", [f10ex])], []⟩

def d301ex : JDict := ⟨some "301 Moved Permanently", some "/pypi/a/json;".data, 0⟩

def net301ex : List Char → Raw := fun _ => Raw.asDict "x".data d301ex

def dlEx : InstallModule → Option String :=
  fun mm => if mm.name = "A" then some "fa" else some "fb"

def dsEx : String → List (Option InstallModule) :=
  fun f => if f = "fa" then [some ⟨"B", []⟩, some ⟨"B", []⟩] else []

def rkEx : InstallModule → Nat := fun mm => if mm.name = "A" then 1 else 0

/-! ## Helper lemmas -/

theorem mem_cleanAux (a : String) :
    ∀ (l seen : List String), a ∈ cleanAux seen l ↔ a ∈ l ∧ a ∉ seen := by
  intro l
  induction l with
  | nil => intro seen; simp [cleanAux]
  | cons f fs ih =>
    intro seen
    by_cases hf : f ∈ seen
    · rw [cleanAux, if_pos hf, ih]
      by_cases haf : a = f
      · subst haf; simp [hf]
      · simp [haf]
    · rw [cleanAux, if_neg hf]
      by_cases haf : a = f
      · subst haf; simp [hf]
      · simp [ih, haf]

theorem nodup_cleanAux : ∀ (l seen : List String), (cleanAux seen l).Nodup := by
  intro l
  induction l with
  | nil => intro seen; simp [cleanAux]
  | cons f fs ih =>
    intro seen
    by_cases hf : f ∈ seen
    · rw [cleanAux, if_pos hf]; exact ih seen
    · rw [cleanAux, if_neg hf]
      refine List.nodup_cons.mpr ⟨fun hmem => ?_, ih (f :: seen)⟩
      exact ((mem_cleanAux f fs (f :: seen)).mp hmem).2 (List.mem_cons_self f seen)

theorem cleanAux_of_nodup :
    ∀ (l seen : List String), l.Nodup → (∀ a ∈ l, a ∉ seen) → cleanAux seen l = l := by
  intro l
  induction l with
  | nil => intro seen _ _; rfl
  | cons f fs ih =>
    intro seen hnd hdisj
    rw [cleanAux, if_neg (hdisj f (List.mem_cons_self f fs))]
    congr 1
    refine ih (f :: seen) (List.nodup_cons.mp hnd).2 fun a ha => ?_
    intro hmem
    rcases List.mem_cons.mp hmem with h | h
    · exact (List.nodup_cons.mp hnd).1 (h ▸ ha)
    · exact hdisj a (List.mem_cons_of_mem f ha) h

theorem cleanAux_dup_drop (x : String) :
    ∀ (pre : List String) (seen post : List String), x ∈ pre ∨ x ∈ seen →
      cleanAux seen (pre ++ x :: post) = cleanAux seen (pre ++ post) := by
  intro pre
  induction pre with
  | nil =>
    intro seen post hx
    rcases hx with hx | hx
    · exact absurd hx (List.not_mem_nil x)
    · simp only [List.nil_append]
      rw [cleanAux, if_pos hx]
  | cons h pre' ih =>
    intro seen post hx
    by_cases hh : h ∈ seen
    · simp only [List.cons_append]
      rw [cleanAux, if_pos hh, cleanAux, if_pos hh]
      refine ih seen post ?_
      rcases hx with hx | hx
      · rcases List.mem_cons.mp hx with h1 | h1
        · exact Or.inr (h1 ▸ hh)
        · exact Or.inl h1
      · exact Or.inr hx
    · simp only [List.cons_append]
      rw [cleanAux, if_neg hh, cleanAux, if_neg hh]
      congr 1
      refine ih (h :: seen) post ?_
      rcases hx with hx | hx
      · rcases List.mem_cons.mp hx with h1 | h1
        · exact Or.inr (h1 ▸ List.mem_cons_self h seen)
        · exact Or.inl h1
      · exact Or.inr (List.mem_cons_of_mem h hx)

theorem dropWhile_append_sentinel (p : Char → Bool) (c : Char) (hc : p c = false) :
    ∀ l : List Char, ∃ s, (List.dropWhile p (l ++ [c])).reverse = c :: s := by
  intro l
  induction l with
  | nil => exact ⟨[], by simp [List.dropWhile, hc]⟩
  | cons a l' ih =>
    by_cases ha : p a
    · simpa [List.dropWhile, ha] using ih
    · exact ⟨l'.reverse ++ [a], by simp [List.dropWhile, ha]⟩

theorem stripChars_cons_of_not_ws (c : Char) (r : List Char)
    (h : c.isWhitespace = false) : ∃ t, stripChars (c :: r) = c :: t := by
  unfold stripChars
  rw [List.dropWhile_cons, h]
  simp only [Bool.false_eq_true, if_false, List.reverse_cons]
  exact dropWhile_append_sentinel Char.isWhitespace c h r.reverse

theorem paren_of_wheelLineMatch (s : List Char) (g1 g2 : List Char)
    (h : wheelLineMatch s = some (g1, g2)) : '(' ∈ s := by
  unfold wheelLineMatch at h
  by_cases ha : s.takeWhile inNameClass = []
  · rw [if_pos ha] at h; exact absurd h (by simp)
  · rw [if_neg ha] at h
    have hsub : '(' ∈ s.dropWhile inNameClass → '(' ∈ s :=
      fun hm => (List.dropWhile_sublist (p := inNameClass)).mem hm
    split at h
    · rename_i r2 heq
      exact hsub (heq ▸ List.mem_cons_of_mem ' ' (List.mem_cons_self '(' r2))
    · exact absurd h (by simp)

theorem wheelLineMatch_none_of_no_punct (s : List Char)
    (h : ∀ c ∈ s, isPunctC c = false) : wheelLineMatch s = none := by
  cases hm : wheelLineMatch s with
  | none => rfl
  | some r =>
    have := paren_of_wheelLineMatch s r.1 r.2 (by rw [hm])
    have := h '(' this
    simp [isPunctC] at this

/-! ## Claim theorems -/

/-- Claim C5: for every candidate version and constraint sequence,
`is_match_version` is the conjunction of `compare_version` over the
individual requirements, and the empty constraint sequence always
matches. -/
theorem c5_matches_is_conjunction (v : List VPart) (C : List VersionRequirement) :
    (is_match_version v C = true ↔
      ∀ r ∈ C, compare_version v r.version r.operator = true) ∧
    is_match_version v [] = true := by
  refine ⟨?_, rfl⟩
  unfold is_match_version
  cases C with
  | nil => simp
  | cons a l => simp [List.all_eq_true]

/-- Claim C8: `clean_duplicated_files` is idempotent, and on an input
holding the same path at two positions the second position is dropped
while the first survives. -/
theorem c8_dedup_idempotent_first_wins (l : List String) :
    clean_duplicated_files (clean_duplicated_files l) = clean_duplicated_files l ∧
    (∀ (l1 l2 l3 : List String) (x : String), l = l1 ++ x :: l2 ++ x :: l3 →
      clean_duplicated_files l = clean_duplicated_files (l1 ++ x :: l2 ++ l3) ∧
      x ∈ clean_duplicated_files l) := by
  constructor
  · exact cleanAux_of_nodup _ [] (nodup_cleanAux l []) (by simp)
  · intro l1 l2 l3 x hl
    constructor
    · have hassoc : l1 ++ x :: l2 ++ x :: l3 = (l1 ++ x :: l2) ++ x :: l3 := by
        simp
      have hdrop := cleanAux_dup_drop x (l1 ++ x :: l2) [] l3
        (Or.inl (by simp))
      unfold clean_duplicated_files
      rw [hl, hassoc, hdrop, List.append_assoc]
    · unfold clean_duplicated_files
      rw [mem_cleanAux x l []]
      exact ⟨by rw [hl]; simp, by simp⟩

theorem c8_witness :
    clean_duplicated_files (clean_duplicated_files ["a", "b", "a"]) =
      clean_duplicated_files ["a", "b", "a"] ∧
    clean_duplicated_files ["a", "b", "a"] = clean_duplicated_files ([] ++ "a" :: ["b"] ++ []) ∧
    "a" ∈ clean_duplicated_files ["a", "b", "a"] := by
  have h := c8_dedup_idempotent_first_wins ["a", "b", "a"]
  have h2 := h.2 [] ["b"] [] "a" (by decide)
  exact ⟨h.1, h2.1, h2.2⟩

/-- Claim C10: a source `requires.txt` line that matches the source
pattern keeps the full group 1 — including a bracketed extras suffix — as
the request name; concretely `foo[bar]>=1.0` yields name `foo[bar]`,
whereas the wheel strategy's `Requires-Dist: foo[bar] (>=1.0)` yields the
stripped name `foo`. -/
theorem c10_source_retains_extras (s g1 g2 g3 : List Char)
    (h : sourceLineMatch s = some (g1, g2, g3)) :
    dep2moduleSrc s =
      some ⟨String.mk g1, [⟨some (parseVersion g3), String.mk g2⟩]⟩ ∧
    dep2moduleSrc "foo[bar]>=1.0".data =
      some ⟨"foo[bar]", [⟨some [.num 1, .num 0], ">="⟩]⟩ ∧
    parseWheelDepLine "Requires-Dist: foo[bar] (>=1.0)".data =
      some ⟨"foo", [⟨some [.num 1, .num 0], ">="⟩]⟩ := by
  refine ⟨?_, by decide, by decide⟩
  unfold dep2moduleSrc
  rw [h]

theorem c10_witness :
    dep2moduleSrc "foo[bar]>=1.0".data =
      some ⟨String.mk "foo[bar]".data,
        [⟨some (parseVersion "1.0".data), String.mk ">=".data⟩]⟩ ∧
    dep2moduleSrc "foo[bar]>=1.0".data =
      some ⟨"foo[bar]", [⟨some [.num 1, .num 0], ">="⟩]⟩ ∧
    parseWheelDepLine "Requires-Dist: foo[bar] (>=1.0)".data =
      some ⟨"foo", [⟨some [.num 1, .num 0], ">="⟩]⟩ :=
  c10_source_retains_extras "foo[bar]>=1.0".data "foo[bar]".data ">=".data "1.0".data
    (by decide)

/-- Claim C7: the source declarations line `baz>=2.0` parses to `baz`
with the single constraint `>= 2.0`, and every blank line, `#` comment
line or `[`-section-header line contributes nothing to
`parse_requirements`. -/
theorem c7_source_line_handling (pre post : List (List Char)) (line : List Char)
    (h : stripChars line = [] ∨ line.headD ' ' = '#' ∨ line.headD ' ' = '[') :
    parse_requirements ["baz>=2.0".data] = [⟨"baz", [⟨some [.num 2, .num 0], ">="⟩]⟩] ∧
    parse_requirements (pre ++ line :: post) = parse_requirements (pre ++ post) := by
  refine ⟨by decide, ?_⟩
  have hk : keepReqLine (stripChars line) = false := by
    rcases h with h | h | h
    · rw [h]; rfl
    · cases line with
      | nil => exact absurd h (by decide)
      | cons c r =>
        have hc : c = '#' := by simpa using h
        subst hc
        obtain ⟨t, ht⟩ := stripChars_cons_of_not_ws '#' r (by decide)
        rw [ht]; rfl
    · cases line with
      | nil => exact absurd h (by decide)
      | cons c r =>
        have hc : c = '[' := by simpa using h
        subst hc
        obtain ⟨t, ht⟩ := stripChars_cons_of_not_ws '[' r (by decide)
        rw [ht]; rfl
  unfold parse_requirements
  simp [List.filter_append, hk]

theorem c7_witness :
    parse_requirements ["baz>=2.0".data] = [⟨"baz", [⟨some [.num 2, .num 0], ">="⟩]⟩] ∧
    parse_requirements ([] ++ "# comment".data :: ["baz>=2.0".data]) =
      parse_requirements ([] ++ ["baz>=2.0".data]) :=
  c7_source_line_handling [] ["baz>=2.0".data] "# comment".data (by decide)

/-- Claim C1 counterexample: with a null metadata-fetch result,
`get_module_url` terminates the whole run (`sys.exit(1)`); it does not
return null to its caller. -/
theorem c1_counterexample :
    get_module_url (fun _ => false) none ⟨"requests", []⟩ = UrlOutcome.fatal ∧
    get_module_url (fun _ => false) none ⟨"requests", []⟩ ≠ UrlOutcome.url none := by
  exact ⟨rfl, by decide⟩

/-- Claim C1 (amended): a null metadata document makes `get_module_url`
abort the entire run via `sys.exit(1)`; the non-fatal null return arises
only when metadata is present but neither a wheel nor a source URL is
located. -/
theorem c1_metadata_null_aborts (supported : String → Bool) (m : InstallModule)
    (proj : ProjectMeta)
    (hw : get_url supported proj .whl m.version_requirements = .ok none)
    (hs : get_url supported proj .source m.version_requirements = .ok none) :
    get_module_url supported none m = UrlOutcome.fatal ∧
    get_module_url supported (some proj) m = UrlOutcome.url none := by
  refine ⟨rfl, ?_⟩
  simp only [get_module_url, hw, hs]

theorem c1_witness :
    get_module_url (fun _ => false) none ⟨"pkg", []⟩ = UrlOutcome.fatal ∧
    get_module_url (fun _ => false) (some ⟨"1.0", [("1.0", [])], []⟩) ⟨"pkg", []⟩ =
      UrlOutcome.url none :=
  c1_metadata_null_aborts (fun _ => false) ⟨"pkg", []⟩ ⟨"1.0", [("1.0", [])], []⟩
    (by rfl) (by rfl)

/-- Claim C6: `Requires-Dist: foo (>=1.2,!=1.3)` parses to `foo` with
constraints `>= 1.2` and `!= 1.3`; `Requires-Dist: bar` parses to a bare
`bar`; a processed line failing the structured pattern with no constraint
punctuation becomes a bare-name request; one failing with constraint
punctuation parses to nothing and contributes no request to the
extractor's dependency list. -/
theorem c6_whl_dependency_parsing (dep1 dep2 line : List Char)
    (pre post : List (List Char))
    (h1 : ∀ c ∈ dep1, isPunctC c = false)
    (h2 : wheelLineMatch dep2 = none)
    (h2b : ∃ c ∈ dep2, isPunctC c = true)
    (h3 : depsLabel.isPrefixOf line = true)
    (h4 : parseWheelDepLine line = none) :
    parseWheelDepLine "Requires-Dist: foo (>=1.2,!=1.3)".data =
      some ⟨"foo", [⟨some [.num 1, .num 2], ">="⟩, ⟨some [.num 1, .num 3], "!="⟩]⟩ ∧
    parseWheelDepLine "Requires-Dist: bar".data = some ⟨"bar", []⟩ ∧
    dep2moduleWhl dep1 = some ⟨String.mk dep1, []⟩ ∧
    dep2moduleWhl dep2 = none ∧
    (get_whl_dependencies (pre ++ line :: post)).filterMap id =
      (get_whl_dependencies (pre ++ post)).filterMap id := by
  refine ⟨by decide, by decide, ?_, ?_, ?_⟩
  · have hm := wheelLineMatch_none_of_no_punct dep1 h1
    have hall : dep1.all (fun c => !isPunctC c) = true := by
      rw [List.all_eq_true]
      intro c hc
      simp [h1 c hc]
    simp [dep2moduleWhl, hm, hall]
  · obtain ⟨c, hc, hpc⟩ := h2b
    have hall : ¬(dep2.all (fun c => !isPunctC c) = true) := by
      rw [List.all_eq_true]
      intro hforall
      have := hforall c hc
      rw [hpc] at this
      exact absurd this (by decide)
    rw [Bool.not_eq_true] at hall
    simp [dep2moduleWhl, h2, hall]
  · unfold get_whl_dependencies
    simp [List.filter_append, h3, h4]

theorem c6_witness :
    parseWheelDepLine "Requires-Dist: foo (>=1.2,!=1.3)".data =
      some ⟨"foo", [⟨some [.num 1, .num 2], ">="⟩, ⟨some [.num 1, .num 3], "!="⟩]⟩ ∧
    parseWheelDepLine "Requires-Dist: bar".data = some ⟨"bar", []⟩ ∧
    dep2moduleWhl "qux".data = some ⟨String.mk "qux".data, []⟩ ∧
    dep2moduleWhl "foo >=1.2".data = none ∧
    (get_whl_dependencies (["Requires-Dist: bar".data] ++
        "Requires-Dist: foo >=1.2".data :: [])).filterMap id =
      (get_whl_dependencies (["Requires-Dist: bar".data] ++ [])).filterMap id :=
  c6_whl_dependency_parsing "qux".data "foo >=1.2".data
    "Requires-Dist: foo >=1.2".data ["Requires-Dist: bar".data] []
    (by decide) (by decide) ⟨'=', by decide, by decide⟩ (by decide) (by decide)

theorem cacheLookup_append_self (cache : ApiCache) (q : List Char) (r : Option JDict)
    (h : cacheLookup cache q = none) : cacheLookup (cache ++ [(q, r)]) q = some r := by
  induction cache with
  | nil => simp [cacheLookup]
  | cons kv rest ih =>
    obtain ⟨k, v⟩ := kv
    by_cases hk : k = q
    · rw [cacheLookup, if_pos hk] at h
      exact absurd h (by simp)
    · rw [cacheLookup, if_neg hk] at h
      rw [List.cons_append, cacheLookup, if_neg hk]
      exact ih h

/-- Claim C9: a cached package name — including one cached as `None`
after a failure — is answered from the cache with no network request; an
uncached name's fetch result is stored under the name before being
returned, so a repeat fetch is answered from the cache with no request. -/
theorem c9_metadata_cache (net : List Char → Raw) (cache1 cache2 : ApiCache)
    (p q : List Char) (v r : Option JDict) (tr : List (List Char))
    (h1 : cacheLookup cache1 p = some v)
    (h2 : cacheLookup cache2 q = none)
    (h3 : fetchFresh net q = (.ok r, tr)) :
    get_project_json net cache1 p = (.ok (v, cache1), []) ∧
    get_project_json net cache2 q = (.ok (r, cache2 ++ [(q, r)]), tr) ∧
    cacheLookup (cache2 ++ [(q, r)]) q = some r ∧
    get_project_json net (cache2 ++ [(q, r)]) q = (.ok (r, cache2 ++ [(q, r)]), []) := by
  have hstore := cacheLookup_append_self cache2 q r h2
  refine ⟨?_, ?_, hstore, ?_⟩
  · unfold get_project_json
    rw [h1]
  · unfold get_project_json
    rw [h2, h3]
  · unfold get_project_json
    rw [hstore]

theorem c9_witness :
    get_project_json (fun _ => Raw.asOther [] 0) [("a".data, none)] "a".data =
      (.ok (none, [("a".data, none)]), []) ∧
    get_project_json (fun _ => Raw.asOther [] 0) [] "b".data =
      (.ok (none, [] ++ [("b".data, none)]), ["b".data]) ∧
    cacheLookup ([] ++ [("b".data, none)]) "b".data = some none ∧
    get_project_json (fun _ => Raw.asOther [] 0) ([] ++ [("b".data, none)]) "b".data =
      (.ok (none, [] ++ [("b".data, none)]), []) :=
  c9_metadata_cache (fun _ => Raw.asOther [] 0) [("a".data, none)] []
    "a".data "b".data none none ["b".data] (by rfl) (by rfl) (by rfl)

theorem searchReleases_sound (finder : List FileInfo → Option String)
    (reqs : List VersionRequirement) :
    ∀ (rels : List (List VPart × List FileInfo)) (u : String),
      searchReleases finder reqs rels = some u →
      ∃ p ∈ rels, is_match_version p.1 reqs = true ∧ finder p.2 = some u := by
  intro rels
  induction rels with
  | nil =>
    intro u h
    exact absurd h (by simp [searchReleases])
  | cons vr rest ih =>
    intro u h
    obtain ⟨v, rel⟩ := vr
    by_cases hm : is_match_version v reqs = true
    · rw [searchReleases, hm] at h
      simp only [Bool.not_true, Bool.false_eq_true, if_false] at h
      cases hf : finder rel with
      | some url =>
        rw [hf] at h
        exact ⟨(v, rel), List.mem_cons_self _ _, hm, by rw [hf, Option.some_inj.mp h]⟩
      | none =>
        rw [hf] at h
        obtain ⟨p, hp, hp1, hp2⟩ := ih u h
        exact ⟨p, List.mem_cons_of_mem _ hp, hp1, hp2⟩
    · rw [Bool.not_eq_true] at hm
      rw [searchReleases, hm] at h
      simp only [Bool.not_false, if_true] at h
      obtain ⟨p, hp, hp1, hp2⟩ := ih u h
      exact ⟨p, List.mem_cons_of_mem _ hp, hp1, hp2⟩

theorem mem_insertRelDesc (x y : List VPart × List FileInfo) :
    ∀ l, x ∈ insertRelDesc y l ↔ x = y ∨ x ∈ l := by
  intro l
  induction l with
  | nil => simp [insertRelDesc]
  | cons z zs ih =>
    rw [insertRelDesc]
    by_cases h : verLtB y.1 z.1
    · rw [if_pos h]
      simp only [List.mem_cons, ih]
      tauto
    · rw [if_neg h]
      simp only [List.mem_cons]

theorem mem_sort_releases (releases : List (String × List FileInfo))
    (x : List VPart × List FileInfo) :
    x ∈ sort_releases releases ↔
      x ∈ releases.map (fun p => (parseVersion p.1.data, p.2)) := by
  unfold sort_releases
  generalize releases.map (fun p => (parseVersion p.1.data, p.2)) = l
  induction l with
  | nil => simp
  | cons a l ih =>
    rw [List.foldr_cons, mem_insertRelDesc]
    simp [ih]

/-- Claim C2 counterexample: the latest version `2.0` fails the
constraint `< 2.0`, yet `get_module_url` returns `u20` — the URL of a
file that occurs only under release `2.0` — because the flat `urls`
fallback is searched without any constraint check. -/
theorem c2_counterexample :
    get_module_url (fun _ => true) (some projEx) modEx = UrlOutcome.url (some "u20") ∧
    is_match_version (parseVersion projEx.latest.data) modEx.version_requirements = false ∧
    (projEx.releases.filter fun rel =>
      rel.2.any fun fi => fi.url = "u20").map Prod.fst = ["2.0"] := by
  refine ⟨by decide, by decide, by decide⟩

/-- Claim C2 (amended): the constraint filter governs only the final
descending-release iteration: when the latest version fails the
constraints and the flat `urls` list yields nothing, every returned URL
does come from a release whose version satisfies the constraints; but the
flat `urls` list itself is searched without a constraint check, so a
constraint-violating file can be returned from that middle level. -/
theorem c2_fallback_respects_constraints (supported : String → Bool)
    (proj : ProjectMeta) (ftype : FType) (reqs : List VersionRequirement)
    (u : String)
    (hlatest : is_match_version (parseVersion proj.latest.data) reqs = false)
    (hurls : finderOf supported ftype proj.urls = none)
    (hfound : get_url supported proj ftype reqs = .ok (some u)) :
    ∃ vstr fis, (vstr, fis) ∈ proj.releases ∧
      is_match_version (parseVersion vstr.data) reqs = true ∧
      finderOf supported ftype fis = some u := by
  rw [get_url, hlatest] at hfound
  simp only [Bool.false_eq_true, if_false] at hfound
  rw [afterLatest, hurls] at hfound
  have hsr : searchReleases (finderOf supported ftype) reqs
      (sort_releases proj.releases) = some u := by
    injection hfound
  obtain ⟨p, hp, hp1, hp2⟩ := searchReleases_sound _ _ _ _ hsr
  rw [mem_sort_releases] at hp
  obtain ⟨q, hq, hqe⟩ := List.mem_map.mp hp
  subst hqe
  exact ⟨q.1, q.2, by simpa using hq, hp1, hp2⟩

theorem c2_witness :
    ∃ vstr fis, (vstr, fis) ∈ proj2Ex.releases ∧
      is_match_version (parseVersion vstr.data) modEx.version_requirements = true ∧
      finderOf (fun _ => true) FType.whl fis = some "u10" :=
  c2_fallback_respects_constraints (fun _ => true) proj2Ex FType.whl
    modEx.version_requirements "u10" (by decide) (by rfl) (by rfl)

/-- Claim C3 counterexample: an endless chain of JSON-shaped redirect
documents (`code = 301 Moved Permanently`) exhausts the 20-iteration
bound, after which the loop's final value is still the redirect object —
a dict — so `get_project_json` returns it as metadata instead of `null`. -/
theorem c3_counterexample :
    (get_project_json net301ex [] "pkg".data).1 =
      .ok (some d301ex, [("pkg".data, some d301ex)]) ∧
    d301ex.code = some "301 Moved Permanently" :=
  ⟨by rfl, rfl⟩

theorem redirectLoop_text_chain (net : List Char → Raw)
    (hnet : ∀ s, ∃ t, net s = Raw.unparsable t ∧ find301 t ≠ none) :
    ∀ (n : Nat) (t : List Char), find301 t ≠ none →
      ∃ t', (redirectLoop net n (.jstr t)).1 = .ok (.jstr t') ∧
        (redirectLoop net n (.jstr t)).2.length = n ∧ find301 t' ≠ none := by
  intro n
  induction n with
  | zero => intro t ht; exact ⟨t, rfl, rfl, ht⟩
  | succ n ih =>
    intro t ht
    obtain ⟨name, hname⟩ := Option.ne_none_iff_exists'.mp ht
    obtain ⟨t2, ht2, hf2⟩ := hnet name
    have hparse : (net name).parse = .jstr t2 := by rw [ht2]; rfl
    obtain ⟨t', h1, h2, h3⟩ := ih t2 hf2
    rcases hres : redirectLoop net n (JVal.jstr t2) with ⟨a, b⟩
    rw [hres] at h1 h2
    have hstep : redirectLoop net (n + 1) (.jstr t) = (a, name :: b) := by
      simp only [redirectLoop, hname, hparse, hres]
    refine ⟨t', ?_, ?_, h3⟩
    · rw [hstep]; exact h1
    · rw [hstep]; simpa using h2

/-- Claim C3 (amended): the redirect loop itself runs at most 20
iterations after one unconditional pre-loop redirect resolution, and for
an endless chain of text-shaped redirect responses `get_project_json`
returns `null` after exactly 22 requests (the original fetch, the
pre-loop hop, and 20 bounded loop hops); an endless JSON-shaped chain,
however, terminates with the redirect dict returned as metadata. -/
theorem c3_redirect_bound (net : List Char → Raw) (cache : ApiCache) (p : List Char)
    (hnet : ∀ s, ∃ t, net s = Raw.unparsable t ∧ find301 t ≠ none)
    (hmiss : cacheLookup cache p = none) :
    (get_project_json net cache p).1 = .ok (none, cache ++ [(p, none)]) ∧
    (get_project_json net cache p).2.length = 22 := by
  obtain ⟨t1, ht1, hf1⟩ := hnet p
  obtain ⟨nm, hnm⟩ := Option.ne_none_iff_exists'.mp hf1
  obtain ⟨t2, ht2, hf2⟩ := hnet nm
  have hparse2 : (net nm).parse = .jstr t2 := by rw [ht2]; rfl
  obtain ⟨t', h1, h2, h3⟩ := redirectLoop_text_chain net hnet 20 t2 hf2
  rcases hres : redirectLoop net 20 (.jstr t2) with ⟨a, b⟩
  rw [hres] at h1 h2
  have ha : a = Except.ok (JVal.jstr t') := h1
  have hb : b.length = 20 := h2
  subst ha
  have hraw : (net p).rawText = t1 := by rw [ht1]; rfl
  have hfetch : fetchFresh net p = (.ok none, [p, nm] ++ b) := by
    simp only [fetchFresh, hraw, hnm, hparse2, hres]
  have hout : get_project_json net cache p =
      (.ok (none, cache ++ [(p, none)]), [p, nm] ++ b) := by
    unfold get_project_json
    rw [hmiss, hfetch]
  rw [hout]
  refine ⟨rfl, ?_⟩
  simp [hb]

theorem c3_witness :
    (get_project_json (fun _ => Raw.unparsable "/pypi/a/json;".data) [] "pkg".data).1 =
      .ok (none, [] ++ [("pkg".data, none)]) ∧
    (get_project_json (fun _ => Raw.unparsable "/pypi/a/json;".data)
      [] "pkg".data).2.length = 22 :=
  c3_redirect_bound (fun _ => Raw.unparsable "/pypi/a/json;".data) [] "pkg".data
    (fun _ => ⟨"/pypi/a/json;".data, rfl, by decide⟩) (by rfl)

theorem mem_insertAsc (a x : String × Int) :
    ∀ l, a ∈ insertAsc x l ↔ a = x ∨ a ∈ l := by
  intro l
  induction l with
  | nil => simp [insertAsc]
  | cons y ys ih =>
    rw [insertAsc]
    by_cases h : x.2 ≤ y.2
    · rw [if_pos h]
      simp
    · rw [if_neg h]
      simp only [List.mem_cons, ih]
      tauto

theorem sorted_insertAsc (x : String × Int) :
    ∀ l, l.Pairwise (fun a b : String × Int => a.2 ≤ b.2) →
      (insertAsc x l).Pairwise (fun a b : String × Int => a.2 ≤ b.2) := by
  intro l
  induction l with
  | nil => intro _; simp [insertAsc]
  | cons y ys ih =>
    intro hp
    obtain ⟨hy, hys⟩ := List.pairwise_cons.mp hp
    rw [insertAsc]
    by_cases h : x.2 ≤ y.2
    · rw [if_pos h]
      refine List.pairwise_cons.mpr ⟨?_, hp⟩
      intro b hb
      rcases List.mem_cons.mp hb with hb | hb
      · exact hb ▸ h
      · exact le_trans h (hy b hb)
    · rw [if_neg h]
      refine List.pairwise_cons.mpr ⟨?_, ih hys⟩
      intro b hb
      rcases (mem_insertAsc b x ys).mp hb with hb | hb
      · exact hb ▸ le_of_not_le h
      · exact hy b hb

theorem sorted_sortByDepth (l : List (String × Int)) :
    (sortByDepth l).Pairwise (fun a b : String × Int => a.2 ≤ b.2) := by
  induction l with
  | nil => simp [sortByDepth]
  | cons x xs ih =>
    rw [sortByDepth]
    exact sorted_insertAsc x _ ih

theorem mem_sortByDepth (a : String × Int) :
    ∀ l, a ∈ sortByDepth l ↔ a ∈ l := by
  intro l
  induction l with
  | nil => simp [sortByDepth]
  | cons x xs ih =>
    rw [sortByDepth, mem_insertAsc]
    simp [ih]

theorem first_occurrence_split {α : Type} (a : α) :
    ∀ l : List α, a ∈ l → ∃ l1 l2, l = l1 ++ a :: l2 ∧ a ∉ l1 := by
  intro l
  induction l with
  | nil => intro h; exact absurd h (List.not_mem_nil a)
  | cons b bs ih =>
    intro h
    by_cases hab : a = b
    · subst hab
      exact ⟨[], bs, rfl, List.not_mem_nil a⟩
    · have hmem : a ∈ bs := by
        rcases List.mem_cons.mp h with h1 | h1
        · exact absurd h1 hab
        · exact h1
      obtain ⟨l1, l2, he, hn⟩ := ih hmem
      exact ⟨b :: l1, l2, by rw [he]; rfl, by simp [hab, hn]⟩

theorem map_eq_append_cons_split {α β : Type} (f : α → β) :
    ∀ (l : List α) (l1 : List β) (x : β) (l2 : List β),
      l.map f = l1 ++ x :: l2 →
      ∃ a1 b a2, l = a1 ++ b :: a2 ∧ a1.map f = l1 ∧ f b = x ∧ a2.map f = l2 := by
  intro l
  induction l with
  | nil =>
    intro l1 x l2 h
    exact absurd h (by simp)
  | cons y ys ih =>
    intro l1 x l2 h
    cases l1 with
    | nil =>
      simp only [List.map_cons, List.nil_append, List.cons.injEq] at h
      exact ⟨[], y, ys, rfl, rfl, h.1, h.2⟩
    | cons z l1' =>
      simp only [List.map_cons, List.cons_append, List.cons.injEq] at h
      obtain ⟨a1, b, a2, he, hm1, hb, hm2⟩ := ih l1' x l2 h.2
      exact ⟨y :: a1, b, a2, by rw [he]; rfl, by simp [hm1, h.1], hb, hm2⟩

theorem cleanAux_before (x y : String) (hxy : x ≠ y) :
    ∀ (l1 : List String) (seen l2 : List String),
      x ∉ seen → y ∉ seen → y ∉ l1 → y ∈ l2 →
      ∃ r1 r2 r3, cleanAux seen (l1 ++ x :: l2) = r1 ++ x :: r2 ++ y :: r3 := by
  intro l1
  induction l1 with
  | nil =>
    intro seen l2 hxs hys _ hyl2
    simp only [List.nil_append]
    rw [cleanAux, if_neg hxs]
    have hy : y ∈ cleanAux (x :: seen) l2 := by
      rw [mem_cleanAux]
      refine ⟨hyl2, fun hm => ?_⟩
      rcases List.mem_cons.mp hm with h' | h'
      · exact hxy h'.symm
      · exact hys h'
    obtain ⟨s, t, hst⟩ := List.append_of_mem hy
    exact ⟨[], s, t, by rw [hst]; rfl⟩
  | cons h l1' ih =>
    intro seen l2 hxs hys hyl1 hyl2
    have hyh : y ≠ h := fun he => hyl1 (he ▸ List.mem_cons_self h l1')
    have hyl1' : y ∉ l1' := fun hm => hyl1 (List.mem_cons_of_mem h hm)
    simp only [List.cons_append]
    by_cases hh : h ∈ seen
    · rw [cleanAux, if_pos hh]
      exact ih seen l2 hxs hys hyl1' hyl2
    · rw [cleanAux, if_neg hh]
      by_cases hxh : x = h
      · subst hxh
        have hy : y ∈ cleanAux (x :: seen) (l1' ++ x :: l2) := by
          rw [mem_cleanAux]
          refine ⟨List.mem_append.mpr (Or.inr (List.mem_cons_of_mem x hyl2)),
            fun hm => ?_⟩
          rcases List.mem_cons.mp hm with h' | h'
          · exact hxy h'.symm
          · exact hys h'
        obtain ⟨s, t, hst⟩ := List.append_of_mem hy
        exact ⟨[], s, t, by rw [hst]; rfl⟩
      · obtain ⟨r1, r2, r3, hr⟩ := ih (h :: seen) l2
          (fun hm => by
            rcases List.mem_cons.mp hm with h' | h'
            · exact hxh h'
            · exact hxs h')
          (fun hm => by
            rcases List.mem_cons.mp hm with h' | h'
            · exact hyh h'
            · exact hys h')
          hyl1' hyl2
        exact ⟨h :: r1, r2, r3, by rw [hr]; rfl⟩

/-- Occurrence closure of the resolver's accumulation: whenever a file
occurs at depth `d` and one of its dependencies resolves to a file, that
file occurs at depth `d - 1`.  The rank function witnesses acyclicity of
the dependency edges, and `rk m < fuel` guarantees no recursive call runs
out of fuel. -/
theorem getModuleFiles_dep_closed (download : InstallModule → Option String)
    (deps : String → List (Option InstallModule)) (rk : InstallModule → Nat)
    (hedge : ∀ m f, download m = some f →
      ∀ dep, (some dep) ∈ deps f → rk dep < rk m) :
    ∀ (fuel : Nat) (m : InstallModule) (depth : Int), rk m < fuel →
      ∀ f d dep fD, (f, d) ∈ getModuleFiles download deps fuel m depth →
        (some dep) ∈ deps f → download dep = some fD →
        (fD, d - 1) ∈ getModuleFiles download deps fuel m depth := by
  intro fuel
  induction fuel with
  | zero =>
    intro m depth h
    exact absurd h (by omega)
  | succ fuel ih =>
    intro m depth hf f d dep fD hmem hdep hdl
    cases hdm : download m with
    | none =>
      rw [getModuleFiles, hdm] at hmem
      exact absurd hmem (List.not_mem_nil _)
    | some f0 =>
      rw [getModuleFiles, hdm] at hmem ⊢
      rcases List.mem_cons.mp hmem with hhead | htail
      · have hf1 : f = f0 := congrArg Prod.fst hhead
        have hf2 : d = depth := congrArg Prod.snd hhead
        subst hf1
        subst hf2
        refine List.mem_cons_of_mem _ (List.mem_flatten.mpr
          ⟨getModuleFiles download deps fuel dep (d - 1), ?_, ?_⟩)
        · exact List.mem_map.mpr ⟨some dep, hdep, rfl⟩
        · have hrkdep : rk dep < rk m := hedge m f hdm dep hdep
          obtain ⟨fuel', rfl⟩ : ∃ k, fuel = k + 1 := ⟨fuel - 1, by omega⟩
          rw [getModuleFiles, hdl]
          exact List.mem_cons_self _ _
      · rw [List.mem_flatten] at htail
        obtain ⟨sub, hsub, hmem'⟩ := htail
        rw [List.mem_map] at hsub
        obtain ⟨od, hod, hodeq⟩ := hsub
        cases od with
        | none =>
          rw [← hodeq] at hmem'
          exact absurd hmem' (List.not_mem_nil _)
        | some dep' =>
          rw [← hodeq] at hmem'
          have hrk' : rk dep' < rk m := hedge m f0 hdm dep' hod
          have hres := ih dep' (depth - 1) (by omega) f d dep fD hmem' hdep hdl
          refine List.mem_cons_of_mem _ (List.mem_flatten.mpr
            ⟨getModuleFiles download deps fuel dep' (depth - 1),
              List.mem_map.mpr ⟨some dep', hod, rfl⟩, hres⟩)

/-- Claim C4: at the original `depth == 0` call the result is the
depth-sorted, path-deduplicated projection of the accumulated files — a
non-decreasing-by-depth, duplicate-free sequence in which, for an
acyclic (rank-decreasing) and resolvable dependency graph, every
dependency's archive occurs strictly before each archive depending on
it; a recursive call (running at `depth < 0`) performs neither the sort
nor the deduplication. -/
theorem c4_resolver_order (download : InstallModule → Option String)
    (deps : String → List (Option InstallModule)) (rk : InstallModule → Nat)
    (fuel : Nat) (m : InstallModule)
    (hedge : ∀ m' f, download m' = some f →
      ∀ dep, (some dep) ∈ deps f → rk dep < rk m')
    (hfuel : rk m < fuel) :
    (sortByDepth (getModuleFiles download deps fuel m 0)).Pairwise
      (fun a b : String × Int => a.2 ≤ b.2) ∧
    get_module_recursive_top download deps fuel m =
      clean_duplicated_files
        ((sortByDepth (getModuleFiles download deps fuel m 0)).map Prod.fst) ∧
    (get_module_recursive_top download deps fuel m).Nodup ∧
    (∀ g d dep f, (g, d) ∈ getModuleFiles download deps fuel m 0 →
      (some dep) ∈ deps g → download dep = some f → f ≠ g →
      Before f g (get_module_recursive_top download deps fuel m)) ∧
    (getModuleFiles dlEx dsEx 3 ⟨"A", []⟩ (-1) =
        [("fa", -1), ("fb", -2), ("fb", -2)] ∧
      sortByDepth (getModuleFiles dlEx dsEx 3 ⟨"A", []⟩ (-1)) ≠
        getModuleFiles dlEx dsEx 3 ⟨"A", []⟩ (-1) ∧
      ¬ ((getModuleFiles dlEx dsEx 3 ⟨"A", []⟩ (-1)).map Prod.fst).Nodup) := by
  refine ⟨sorted_sortByDepth _, rfl, nodup_cleanAux _ [], ?_, by decide⟩
  intro g d dep f hg hdep hdl hne
  have hclosure : ∀ d', (g, d') ∈ getModuleFiles download deps fuel m 0 →
      (f, d' - 1) ∈ getModuleFiles download deps fuel m 0 :=
    fun d' hmem => getModuleFiles_dep_closed download deps rk hedge fuel m 0 hfuel
      g d' dep f hmem hdep hdl
  have hsorted := sorted_sortByDepth (getModuleFiles download deps fuel m 0)
  have hgP : g ∈ (sortByDepth (getModuleFiles download deps fuel m 0)).map Prod.fst :=
    List.mem_map.mpr ⟨(g, d), (mem_sortByDepth _ _).mpr hg, rfl⟩
  obtain ⟨P1, P2, hPsplit, hgP1⟩ := first_occurrence_split g _ hgP
  obtain ⟨A, b, B, hLsplit, hmA, hfb, hmB⟩ :=
    map_eq_append_cons_split Prod.fst _ P1 g P2 hPsplit
  have hbfiles : b ∈ getModuleFiles download deps fuel m 0 := by
    rw [← mem_sortByDepth, hLsplit]
    exact List.mem_append.mpr (Or.inr (List.mem_cons_self b B))
  have hb' : (g, b.2) = b := by
    rw [← hfb]
  have hfmem : (f, b.2 - 1) ∈ getModuleFiles download deps fuel m 0 :=
    hclosure b.2 (hb' ▸ hbfiles)
  have hfL : (f, b.2 - 1) ∈ A ++ b :: B := by
    rw [← hLsplit, mem_sortByDepth]
    exact hfmem
  rcases List.mem_append.mp hfL with hfA | hfbB
  · have hfP1 : f ∈ P1 := by
      rw [← hmA]
      exact List.mem_map.mpr ⟨(f, b.2 - 1), hfA, rfl⟩
    obtain ⟨Q1, Q2, hQ⟩ := List.append_of_mem hfP1
    have hPfull : (sortByDepth (getModuleFiles download deps fuel m 0)).map Prod.fst =
        Q1 ++ f :: (Q2 ++ g :: P2) := by
      rw [hPsplit, hQ]
      simp
    have hgQ1 : g ∉ Q1 := fun hm => hgP1 (hQ ▸ List.mem_append.mpr (Or.inl hm))
    have hgtail : g ∈ Q2 ++ g :: P2 :=
      List.mem_append.mpr (Or.inr (List.mem_cons_self g P2))
    obtain ⟨r1, r2, r3, hr⟩ := cleanAux_before f g hne Q1 [] (Q2 ++ g :: P2)
      (List.not_mem_nil f) (List.not_mem_nil g) hgQ1 hgtail
    refine ⟨r1, r2, r3, ?_⟩
    show clean_duplicated_files _ = _
    unfold clean_duplicated_files
    rw [hPfull]
    exact hr
  · rcases List.mem_cons.mp hfbB with heq | hfB
    · have : f = g := by
        rw [← hfb]
        exact congrArg Prod.fst heq
      exact absurd this hne
    · have hpb := (List.pairwise_append.mp (hLsplit ▸ hsorted)).2.1
      have hle := (List.pairwise_cons.mp hpb).1 (f, b.2 - 1) hfB
      have hle' : b.2 ≤ b.2 - 1 := hle
      omega

theorem c4_witness :
    Before "fb" "fa" (get_module_recursive_top dlEx dsEx 2 ⟨"A", []⟩) ∧
    (get_module_recursive_top dlEx dsEx 2 ⟨"A", []⟩).Nodup := by
  have hedge : ∀ m' f, dlEx m' = some f →
      ∀ dep, (some dep) ∈ dsEx f → rkEx dep < rkEx m' := by
    intro m' f hf dep hdep
    unfold dlEx at hf
    unfold rkEx
    by_cases hA : m'.name = "A"
    · rw [if_pos hA] at hf
      have hfa : f = "fa" := (Option.some_inj.mp hf).symm
      subst hfa
      have hds : dsEx "fa" = [some ⟨"B", []⟩, some ⟨"B", []⟩] := by decide
      rw [hds] at hdep
      have hdep' : dep = ⟨"B", []⟩ := by
        rcases List.mem_cons.mp hdep with h' | h'
        · exact Option.some_inj.mp h'
        · rcases List.mem_cons.mp h' with h'' | h''
          · exact Option.some_inj.mp h''
          · exact absurd h'' (List.not_mem_nil _)
      subst hdep'
      rw [if_pos hA]
      decide
    · rw [if_neg hA] at hf
      have hfb : f = "fb" := (Option.some_inj.mp hf).symm
      subst hfb
      have hds : dsEx "fb" = [] := by decide
      rw [hds] at hdep
      exact absurd hdep (List.not_mem_nil _)
  have h := c4_resolver_order dlEx dsEx rkEx 2 ⟨"A", []⟩ hedge (by decide)
  exact ⟨h.2.2.2.1 "fa" 0 ⟨"B", []⟩ "fb" (by decide) (by decide) (by decide)
    (by decide), h.2.2.1⟩

example : parseWheelDepLine "Requires-Dist: foo (>=1.2,!=1.3)".data =
    some ⟨"foo", [⟨some [.num 1, .num 2], ">="⟩, ⟨some [.num 1, .num 3], "!="⟩]⟩ := by decide
example : parseWheelDepLine "Requires-Dist: bar".data = some ⟨"bar", []⟩ := by decide
example : parseWheelDepLine "Requires-Dist: foo[bar] (>=1.0)".data =
    some ⟨"foo", [⟨some [.num 1, .num 0], ">="⟩]⟩ := by decide
example : dep2moduleSrc "baz>=2.0".data = some ⟨"baz", [⟨some [.num 2, .num 0], ">="⟩]⟩ := by
  decide
example : dep2moduleSrc "foo[bar]>=1.0".data =
    some ⟨"foo[bar]", [⟨some [.num 1, .num 0], ">="⟩]⟩ := by decide
example : parse_requirements ["# comment".data, "[extra]".data, "  ".data, "baz>=2.0".data] =
    [⟨"baz", [⟨some [.num 2, .num 0], ">="⟩]⟩] := by decide
example : clean_duplicated_files ["a", "b", "a", "c", "b"] = ["a", "b", "c"] := by decide

example : find301 "abc /pypi/req-uests.x/json; tail".data = some "req-uests.x".data := by decide
example : find301 "/pypi//json;".data = none := by decide
example : find301 "code: x".data = none := by decide

example : parseVersion "1.2".data = [.num 1, .num 2] := by decide
example : parseVersion "2.0".data = [.num 2, .num 0] := by decide
example : parseVersion "1.0b2".data = [.num 1, .num 0, .alpha "b", .num 2] := by decide
example : parseVersion "1.0-x".data = [.num 1, .num 0, .alpha "-", .alpha "x"] := by decide
example : verLtB (parseVersion "1.9".data) (parseVersion "1.10".data) = true := by decide
example : verLtB (parseVersion "2.0".data) (parseVersion "2.0".data) = false := by decide
example : is_match_version (parseVersion "2.0".data)
    [⟨some (parseVersion "2.0".data), "<"⟩] = false := by decide
example : is_match_version (parseVersion "1.5".data)
    [⟨some (parseVersion "1.2".data), ">="⟩, ⟨some (parseVersion "1.3".data), "!="⟩] = true := by
  decide

end Curlpip
